import Mathlib

/-!
Verification development for the Auto_typer backend
(src/Auto_typer_by_teja/src/backend.py).

The Python backend is shallowly embedded:
* Python strings are `String` / `List Char`; `str.lower` is modelled by
  `Char.toLower` per character (the ASCII case mapping);
* Python floats in snippet parameters are `ℚ` (they only undergo
  comparisons and arithmetic on small decimal literals);
* the random number generator and the wall clock are explicit oracle
  arguments (`Decision`, `pick`, timestamps passed in);
* `keyboard.write` / `keyboard.press_and_release` calls are recorded as an
  event trace (`Ev`);
* JSON files are modelled as parsed Python values (`PyVal`); a file system
  is a map from paths to `Option PyVal`, `none` standing for an unreadable
  or unparsable file.
-/

/-- One keystroke event emitted by the typing worker.  `main c` is the
`keyboard.write(char)` of backend.py line 190 (the per-source-character
write), `retype c` is the `keyboard.write(deleted_char)` of line 182, and
`back` is the `keyboard.press_and_release('backspace')` of line 172. -/
inductive Ev where
  | back : Ev
  | retype : Char → Ev
  | main : Char → Ev
deriving DecidableEq, Repr

/-- The random draws consumed by one iteration of the typing loop:
`doBack` models `backspace_prob > 0 and random.random() < backspace_prob`
(line 159), and `pick` drives `random.randint` (line 166): the drawn count
is `effective_min + pick % (effective_max + 1 - effective_min)`, which
ranges over exactly the closed interval randint draws from. -/
structure Decision where
  doBack : Bool
  pick : Nat
deriving DecidableEq, Repr

/-- backend.py lines 160-186: the simulated-correction burst.  Computes
`effective_max_backspaces`/`effective_min_backspaces`, draws the count,
presses that many backspaces, truncates `typed_buffer`, then re-types the
deleted characters.  Returns the new buffer and the emitted events. -/
def burstResult (minB maxB pick : Nat) (buf : List Char) : List Char × List Ev :=
  let effMax := min maxB buf.length
  let effMin := min minB effMax
  if 0 < effMin ∧ effMin ≤ effMax then
    let num := effMin + pick % (effMax + 1 - effMin)
    let deleted := buf.drop (buf.length - num)
    (buf.take (buf.length - num) ++ deleted,
      List.replicate num Ev.back ++ deleted.map Ev.retype)
  else (buf, [])

/-- backend.py lines 157-192: one iteration of `for char in text`.
A correction burst fires only when `doBack` holds and the buffer is
nonempty (line 159); afterwards the current character is written and
appended to `typed_buffer` (lines 190-191). -/
def stepChar (minB maxB : Nat) (d : Decision) (buf : List Char) (c : Char) :
    List Char × List Ev :=
  let r := if d.doBack && !buf.isEmpty then burstResult minB maxB d.pick buf else (buf, [])
  (r.1 ++ [c], r.2 ++ [Ev.main c])

/-- The typing loop of `type_text_worker` (backend.py lines 157-192),
threading the buffer and consuming one `Decision` per source character.
Returns the full event trace and the final `typed_buffer`. -/
def typeLoop (minB maxB : Nat) : List Char → List Decision → List Char → List Ev × List Char
  | [], _, buf => ([], buf)
  | c :: rest, ds, buf =>
    let s := stepChar minB maxB (ds.headD ⟨false, 0⟩) buf c
    let t := typeLoop minB maxB rest ds.tail s.1
    (s.2 ++ t.1, t.2)

/-- `type_text_worker` (backend.py lines 153-197) started with an empty
`typed_buffer`. -/
def type_text_worker (minB maxB : Nat) (ds : List Decision) (text : List Char) :
    List Ev × List Char :=
  typeLoop minB maxB text ds []

/-- Extracts the source-character write (line 190) from an event. -/
def mainChar : Ev → Option Char
  | Ev.main c => some c
  | _ => none

/-- One entry of history.json (backend.py line 219). -/
structure HistoryEntry where
  snippet_name : String
  typed_text : String
  timestamp : String
deriving DecidableEq, Repr

/-- `save_history` (backend.py lines 216-226): prepend the new entry
(`history.insert(0, ...)`) and keep only the first 100 entries
(`history[:100]`).  The current file contents are passed in as `history`;
the write-back is the returned list. -/
def save_history (name text ts : String) (history : List HistoryEntry) :
    List HistoryEntry :=
  (({ snippet_name := name, typed_text := text, timestamp := ts } : HistoryEntry)
    :: history).take 100

/-- A snippet record as the frontend stores it: every field of the JSON
object is optional, read with `snippet.get(key, default)`. -/
structure Snippet where
  text : Option String
  min_delay : Option ℚ
  max_delay : Option ℚ
  backspace_probability : Option ℚ
  min_backspaces : Option Int
  max_backspaces : Option Int
  hotkey : Option String
  category : Option String
deriving DecidableEq, Repr

/-- The numeric parameters after extraction and validation. -/
structure Params where
  min_delay : ℚ
  max_delay : ℚ
  backspace_prob : ℚ
  min_backspaces : Int
  max_backspaces : Int
deriving DecidableEq, Repr

/-- backend.py lines 131-147: read each parameter with its default, then
replace out-of-range values by the fixed defaults (delays 0.01/0.05,
probability 0, backspace counts 1/3). -/
def validateParams (s : Snippet) : Params :=
  let min_delay := s.min_delay.getD 0.01
  let max_delay := s.max_delay.getD 0.05
  let backspace_prob := s.backspace_probability.getD 0
  let min_backspaces := s.min_backspaces.getD 1
  let max_backspaces := s.max_backspaces.getD 3
  let d : ℚ × ℚ :=
    if ¬ (0 ≤ min_delay ∧ min_delay ≤ max_delay) then (0.01, 0.05)
    else (min_delay, max_delay)
  let bp : ℚ := if ¬ (0 ≤ backspace_prob ∧ backspace_prob ≤ 1) then 0 else backspace_prob
  let bs : Int × Int :=
    if ¬ (0 < min_backspaces ∧ min_backspaces ≤ max_backspaces) then (1, 3)
    else (min_backspaces, max_backspaces)
  ⟨d.1, d.2, bp, bs.1, bs.2⟩

/-- Observable outcome of a call to `execute_snippet`: either an early
return (snippet missing, or no text to type) or a typing run with its
event trace and validated parameters. -/
inductive ExecOutcome where
  | notFound : ExecOutcome
  | noText : ExecOutcome
  | ran : List Ev → Params → ExecOutcome
deriving DecidableEq, Repr

/-- `execute_snippet` (backend.py lines 120-200).  `store` is the loaded
snippets mapping, `history` the current contents of history.json, `ds` the
random oracle, `ts` the timestamp `datetime.now().isoformat()`.  `abort`
models an exception raised by the keyboard facility during the typing
loop: `some k` truncates the emitted trace after `k` events (the outer
`except` of line 194 swallows it).  In every case the `finally` of
lines 196-197 runs `save_history` with the snippet name and the FULL
source text, so the returned history does not depend on `abort` or on the
trace. -/
def execute_snippet (store : List (String × Snippet)) (history : List HistoryEntry)
    (name : String) (ds : List Decision) (abort : Option Nat) (ts : String) :
    ExecOutcome × List HistoryEntry :=
  match store.lookup name with
  | none => (ExecOutcome.notFound, history)
  | some snippet =>
    let p := validateParams snippet
    let text := snippet.text.getD ""
    if text = "" then (ExecOutcome.noText, history)
    else
      let fullTrace := (type_text_worker p.min_backspaces.toNat p.max_backspaces.toNat
        ds text.data).1
      let events := match abort with
        | none => fullTrace
        | some k => fullTrace.take k
      (ExecOutcome.ran events p, save_history name text ts history)

/-- A parsed JSON value as Python's json module produces it.  Object keys
are strings; numbers are split into int/float as json.load does. -/
inductive PyVal where
  | null : PyVal
  | bool : Bool → PyVal
  | int : Int → PyVal
  | float : ℚ → PyVal
  | str : String → PyVal
  | list : List PyVal → PyVal
  | dict : List (String × PyVal) → PyVal

/-- `isinstance(v, dict)` for a parsed JSON value. -/
def PyVal.isDict : PyVal → Bool
  | PyVal.dict _ => true
  | _ => false

/-- `import_snippets` (backend.py lines 246-257).  `fs path = none` models
an unreadable file or a `json.JSONDecodeError` (the `except` of line 255
returns None); a parsed value that is not a dict is rejected with None
(lines 251-253); otherwise the parsed mapping is returned. -/
def import_snippets (fs : String → Option PyVal) (path : String) : Option PyVal :=
  match fs path with
  | none => none
  | some v => if v.isDict then some v else none

/-- `export_snippets` (backend.py lines 260-268): `json.dump` the mapping
to `path`.  Reading the written file back yields the same parsed value
(json.load after json.dump is the identity on string-keyed values). -/
def export_snippets (fs : String → Option PyVal) (path : String) (snippets : PyVal) :
    String → Option PyVal :=
  fun q => if q = path then some snippets else fs q

/-- Python `d[k] = v` on a dict modelled as an insertion-ordered
association list: overwrite in place if the key exists, else append. -/
def dictSet (kvs : List (String × PyVal)) (k : String) (v : PyVal) :
    List (String × PyVal) :=
  if kvs.any (fun kv => kv.1 = k) then
    kvs.map (fun kv => if kv.1 = k then (k, v) else kv)
  else kvs ++ [(k, v)]

/-- Python `d.update(other)`: set each key/value of `other` in order. -/
def dictUpdate (d other : List (String × PyVal)) : List (String × PyVal) :=
  other.foldl (fun acc kv => dictSet acc kv.1 kv.2) d

/-- The import flow of frontend.py `on_import` (lines 616-629): if
`import_snippets` returns a mapping, merge it into the global snippets
dict with `snippets.update(imported)`; on None the store is untouched. -/
def on_import (fs : String → Option PyVal) (path : String)
    (snippets : List (String × PyVal)) : List (String × PyVal) :=
  match import_snippets fs path with
  | some (PyVal.dict kvs) => dictUpdate snippets kvs
  | _ => snippets

/-- The synonym table of backend.py lines 39-61, as (key, value) pairs of
character lists.  Keys containing a space can never match a lookup, since
every space has already been removed from the input by the time parts are
looked up (line 63 removes spaces before splitting); they are kept here
for faithfulness. -/
def replacements : List (List Char × List Char) :=
  [("control".data, "ctrl".data),
   ("control_l".data, "ctrl".data),
   ("control_r".data, "ctrl".data),
   ("alt_l".data, "alt".data),
   ("alt_r".data, "alt".data),
   ("shift_l".data, "shift".data),
   ("shift_r".data, "shift".data),
   ("win".data, "windows".data),
   ("command".data, "cmd".data),
   ("option".data, "alt".data),
   ("escape".data, "esc".data),
   ("pagedown".data, "pgdn".data),
   ("page up".data, "pgup".data),
   ("insert".data, "ins".data),
   ("delete".data, "del".data),
   ("print screen".data, "print_screen".data),
   ("scroll lock".data, "scroll_lock".data),
   ("caps lock".data, "caps_lock".data),
   ("num lock".data, "num_lock".data),
   ("pause".data, "pause break".data),
   ("break".data, "pause break".data)]

/-- `replacements.get(p, p)` of backend.py line 64. -/
def repl (p : List Char) : List Char := (replacements.lookup p).getD p

/-- backend.py line 63 before the split: lower-case, delete every space,
turn every hyphen into a plus. -/
def cleanChars (s : List Char) : List Char :=
  ((s.map Char.toLower).filter (fun c => c ≠ ' ')).map
    (fun c => if c = '-' then '+' else c)

/-- Python `str.split("+")` on a character list: the maximal chunks
between occurrences of the separator, with empty chunks kept
("a++b" gives ["a", "", "b"], "" gives [""]). -/
def splitPlus : List Char → List (List Char)
  | [] => [[]]
  | c :: rest =>
    if c = '+' then [] :: splitPlus rest
    else
      match splitPlus rest with
      | [] => [[c]]
      | p :: ps => (c :: p) :: ps

/-- Python `"+".join(parts)` on character lists. -/
def joinPlus : List (List Char) → List Char
  | [] => []
  | [p] => p
  | p :: ps => p ++ '+' :: joinPlus ps

/-- backend.py line 68: the fixed modifier priority list. -/
def modifier_order : List (List Char) :=
  ["ctrl".data, "shift".data, "alt".data, "windows".data, "cmd".data]

/-- The sort key of backend.py line 69:
`(x not in modifier_order, modifier_order.index(x) if x in modifier_order
else len(modifier_order), x)`, compared lexicographically.  For `x` not in
the list, `List.indexOf` returns the length 5, which coincides with the
Python `else` branch. -/
def hotkeyKey (x : List Char) : ℕ ×ₗ (ℕ ×ₗ List Char) :=
  toLex (((if x ∈ modifier_order then 0 else 1) : ℕ),
    toLex (modifier_order.indexOf x, x))

/-- The ordering induced by `hotkeyKey`. -/
def keyLe (a b : List Char) : Prop := hotkeyKey a ≤ hotkeyKey b

instance : DecidableRel keyLe := fun a b =>
  inferInstanceAs (Decidable (hotkeyKey a ≤ hotkeyKey b))

instance : IsTotal (List Char) keyLe := ⟨fun a b => le_total (hotkeyKey a) (hotkeyKey b)⟩

instance : IsTrans (List Char) keyLe := ⟨fun _ _ _ h1 h2 => le_trans h1 h2⟩

instance : IsAntisymm (List Char) keyLe := by
  constructor
  intro a b h1 h2
  have h := le_antisymm (a := hotkeyKey a) h1 h2
  have h3 := congrArg (fun k => (ofLex (ofLex k).2).2) h
  simpa [hotkeyKey] using h3

/-- backend.py line 64, the local `normalized`: split the cleaned input
on '+', drop empty parts, apply the synonym table, collapse duplicates
(Python set) and sort lexicographically (Python sorted). -/
def normalized_parts (s : List Char) : List (List Char) :=
  List.insertionSort (fun a b => a ≤ b)
    ((((splitPlus (cleanChars s)).filter (fun p => p ≠ [])).map repl).dedup)

/-- backend.py line 69, the local `sorted_parts`: sort by the modifier
priority key. -/
def sorted_parts (s : List Char) : List (List Char) :=
  List.insertionSort keyLe (normalized_parts s)

/-- `normalize_hotkey` (backend.py lines 37-71) on a character list:
clean (line 63), split on '+', drop empty parts, apply the synonym table,
deduplicate and sort lexicographically (line 64), sort by the modifier
key (line 69), join with '+' (line 71). -/
def normalize_core (s : List Char) : List Char :=
  joinPlus (sorted_parts s)

/-- `normalize_hotkey` on Lean strings. -/
def normalize_hotkey (s : String) : String := String.mk (normalize_core s.data)

/-! ### Helper lemmas about the typing worker -/

lemma burstResult_fst (minB maxB pick : Nat) (buf : List Char) :
    (burstResult minB maxB pick buf).1 = buf := by
  simp only [burstResult]
  split
  · simp
  · rfl

lemma stepChar_fst (minB maxB : Nat) (d : Decision) (buf : List Char) (c : Char) :
    (stepChar minB maxB d buf c).1 = buf ++ [c] := by
  unfold stepChar
  split
  · simp [burstResult_fst]
  · rfl

lemma burstResult_no_main (minB maxB pick : Nat) (buf : List Char) :
    (burstResult minB maxB pick buf).2.filterMap mainChar = [] := by
  simp only [burstResult]
  split
  · rw [List.filterMap_eq_nil_iff]
    intro e he
    rcases List.mem_append.mp he with h | h
    · rw [List.eq_of_mem_replicate h]; rfl
    · rcases List.mem_map.mp h with ⟨c, _, rfl⟩; rfl
  · rfl

lemma stepChar_snd_filterMap (minB maxB : Nat) (d : Decision) (buf : List Char) (c : Char) :
    (stepChar minB maxB d buf c).2.filterMap mainChar = [c] := by
  unfold stepChar
  split
  · simp [burstResult_no_main, mainChar]
  · simp [mainChar]

lemma typeLoop_filterMap_main (minB maxB : Nat) (text : List Char) :
    ∀ ds buf, (typeLoop minB maxB text ds buf).1.filterMap mainChar = text := by
  induction text with
  | nil => intro ds buf; rfl
  | cons c rest ih =>
    intro ds buf
    simp [typeLoop, List.filterMap_append, stepChar_snd_filterMap, ih]

lemma typeLoop_snd (minB maxB : Nat) (text : List Char) :
    ∀ ds buf, (typeLoop minB maxB text ds buf).2 = buf ++ text := by
  induction text with
  | nil => intro ds buf; simp [typeLoop]
  | cons c rest ih =>
    intro ds buf
    simp [typeLoop, stepChar_fst, ih]

/-! ### Theorems for the claims about the typing worker -/

/-- C1: for every snippet text of length N at least 1, one run of the
typing worker emits exactly N main character events (one
keyboard.write per source character, backend.py line 190), in source
order, interleaved only with correction-burst events: projecting the
trace onto main events gives back the source text itself. -/
theorem typing_emits_each_source_char (minB maxB : Nat) (ds : List Decision)
    (text : List Char) (hN : 1 ≤ text.length) :
    (type_text_worker minB maxB ds text).1.filterMap mainChar = text :=
  typeLoop_filterMap_main minB maxB text ds []

/-- Witness for C1 on the concrete text "ab" with a correction burst
after the first character. -/
theorem typing_emits_each_source_char_witness :
    1 ≤ ("ab".data).length ∧
      (type_text_worker 1 3 [⟨false, 0⟩, ⟨true, 0⟩] "ab".data).1.filterMap mainChar
        = "ab".data :=
  ⟨by decide, typing_emits_each_source_char 1 3 [⟨false, 0⟩, ⟨true, 0⟩] "ab".data (by decide)⟩

/-- C9: the typed_buffer invariant of type_text_worker.  First conjunct:
each loop iteration extends the buffer by exactly the current source
character, because a correction burst first deletes exactly a suffix of
the buffer and then re-appends exactly those deleted characters
(backend.py lines 169-184), so the burst leaves the buffer unchanged.
Second conjunct: therefore, starting from any processed prefix, the
buffer at the end of every iteration equals the source prefix processed
so far; with buf = [] and the full text, the final buffer equals the
entire source text. -/
theorem typed_buffer_prefix_invariant (minB maxB : Nat) :
    (∀ (d : Decision) (buf : List Char) (c : Char),
      (stepChar minB maxB d buf c).1 = buf ++ [c]) ∧
    (∀ (text : List Char) (ds : List Decision) (buf : List Char),
      (typeLoop minB maxB text ds buf).2 = buf ++ text) :=
  ⟨fun d buf c => stepChar_fst minB maxB d buf c,
   fun text ds buf => typeLoop_snd minB maxB text ds buf⟩

/-! ### History and execute_snippet claims -/

/-- C5: after every call to save_history the stored history has at most
100 entries, the new entry is first, and the surviving existing entries
keep their relative (newest-first) order: the result is exactly the new
entry followed by the first 99 old entries, whatever the old history
was. -/
theorem save_history_cap_and_newest_first (name text ts : String)
    (history : List HistoryEntry) :
    (save_history name text ts history).length ≤ 100 ∧
    save_history name text ts history =
      (⟨name, text, ts⟩ : HistoryEntry) :: history.take 99 := by
  constructor
  · simp [save_history]
  · simp [save_history, List.take_succ_cons]

/-- C3 counterexample: the claim quantifies over every invocation of
execute_snippet, but an invocation naming a missing snippet returns
before the typing thread is created (backend.py lines 125-127) and
appends no history entry: here the history stays empty. -/
theorem execute_missing_snippet_no_history_entry :
    execute_snippet [] [] "greet" [] none "2026-01-01T00:00:00" =
      (ExecOutcome.notFound, []) := rfl

/-- C3 (amended): every invocation of execute_snippet that finds the
snippet and has nonempty text appends exactly one history entry holding
the snippet name, the FULL source text (not the characters actually
typed), and the given timestamp; the same entry is appended on normal
completion and on any error during typing (the abort oracle), since the
append sits in the finally block (backend.py lines 196-197). -/
theorem execute_run_appends_one_history_entry (store : List (String × Snippet))
    (history : List HistoryEntry) (name : String) (ds : List Decision)
    (abort : Option Nat) (ts : String) (s : Snippet)
    (hs : store.lookup name = some s) (ht : s.text.getD "" ≠ "") :
    (execute_snippet store history name ds abort ts).2 =
      (⟨name, s.text.getD "", ts⟩ : HistoryEntry) :: history.take 99 := by
  simp [execute_snippet, hs, ht, save_history, List.take_succ_cons]

/-- Witness for C3 (amended): a stored snippet "a" with text "hi", run
with an error injected after 0 events, still appends its entry. -/
theorem execute_run_appends_one_history_entry_witness :
    (execute_snippet [("a", ⟨some "hi", none, none, none, none, none, none, none⟩)]
        [] "a" [] (some 0) "t").2 =
      (⟨"a", (some "hi").getD "", "t"⟩ : HistoryEntry) :: ([] : List HistoryEntry).take 99 :=
  execute_run_appends_one_history_entry
    [("a", ⟨some "hi", none, none, none, none, none, none, none⟩)] [] "a" [] (some 0) "t"
    ⟨some "hi", none, none, none, none, none, none, none⟩ (by decide) (by decide)

/-- C10: if the named snippet is missing from the loaded store, or its
text field is empty or missing, execute_snippet returns without starting
a typing run: no keystroke event is produced and the history is exactly
the one passed in (the history file is untouched). -/
theorem execute_snippet_missing_or_empty_noop (store : List (String × Snippet))
    (history : List HistoryEntry) (name : String) (ds : List Decision)
    (abort : Option Nat) (ts : String) :
    (store.lookup name = none →
      execute_snippet store history name ds abort ts = (ExecOutcome.notFound, history)) ∧
    (∀ s : Snippet, store.lookup name = some s → s.text.getD "" = "" →
      execute_snippet store history name ds abort ts = (ExecOutcome.noText, history)) := by
  constructor
  · intro h
    simp [execute_snippet, h]
  · intro s hs ht
    simp [execute_snippet, hs, ht]

/-- Witness for C10: a missing name and an empty-text snippet both leave
the history (here empty) unchanged and produce no typing run. -/
theorem execute_snippet_missing_or_empty_noop_witness :
    execute_snippet [] [] "x" [] none "t" = (ExecOutcome.notFound, []) ∧
    execute_snippet [("y", ⟨some "", none, none, none, none, none, none, none⟩)]
        [] "y" [] none "t" = (ExecOutcome.noText, []) :=
  ⟨(execute_snippet_missing_or_empty_noop [] [] "x" [] none "t").1 (by decide),
   (execute_snippet_missing_or_empty_noop
      [("y", ⟨some "", none, none, none, none, none, none, none⟩)] [] "y" [] none "t").2
      ⟨some "", none, none, none, none, none, none, none⟩ (by decide) (by decide)⟩

/-- C6: execute_snippet validates the numeric parameters and replaces
out-of-range values with the fixed defaults instead of rejecting the
snippet: the validated parameters always satisfy the invariants, the
backspace probability is kept iff it lies in [0, 1] and otherwise set
to 0 (so 1.5 becomes 0), delays violating 0 <= min <= max become
0.01/0.05, and backspace counts violating 0 < min <= max become 1/3. -/
theorem validate_params_clamps (s : Snippet) :
    (0 ≤ (validateParams s).min_delay ∧
      (validateParams s).min_delay ≤ (validateParams s).max_delay) ∧
    (0 ≤ (validateParams s).backspace_prob ∧ (validateParams s).backspace_prob ≤ 1) ∧
    (0 < (validateParams s).min_backspaces ∧
      (validateParams s).min_backspaces ≤ (validateParams s).max_backspaces) ∧
    ((validateParams s).backspace_prob =
      if 0 ≤ s.backspace_probability.getD 0 ∧ s.backspace_probability.getD 0 ≤ 1
      then s.backspace_probability.getD 0 else 0) ∧
    (((validateParams s).min_delay, (validateParams s).max_delay) =
      if 0 ≤ s.min_delay.getD 0.01 ∧ s.min_delay.getD 0.01 ≤ s.max_delay.getD 0.05
      then (s.min_delay.getD 0.01, s.max_delay.getD 0.05) else (0.01, 0.05)) ∧
    (((validateParams s).min_backspaces, (validateParams s).max_backspaces) =
      if 0 < s.min_backspaces.getD 1 ∧ s.min_backspaces.getD 1 ≤ s.max_backspaces.getD 3
      then (s.min_backspaces.getD 1, s.max_backspaces.getD 3) else (1, 3)) := by
  by_cases h1 : 0 ≤ s.min_delay.getD 0.01 ∧ s.min_delay.getD 0.01 ≤ s.max_delay.getD 0.05 <;>
  by_cases h2 : 0 ≤ s.backspace_probability.getD 0 ∧ s.backspace_probability.getD 0 ≤ 1 <;>
  by_cases h3 : 0 < s.min_backspaces.getD 1 ∧ s.min_backspaces.getD 1 ≤ s.max_backspaces.getD 3 <;>
  simp [validateParams, h1, h2, h3] <;> norm_num

/-- The backspace count drawn by the burst (backend.py line 166) when the
validated invariant min_backspaces <= max_backspaces holds, as a function
of the randint oracle `pick`: effective_min + pick mod (interval size). -/
def burstNum (minB maxB pick len : Nat) : Nat :=
  min minB len + pick % (min maxB len + 1 - min minB len)

lemma burstResult_snd_eq (minB maxB pick : Nat) (buf : List Char)
    (h1 : 1 ≤ minB) (h2 : minB ≤ maxB) (hb : buf ≠ []) :
    (burstResult minB maxB pick buf).2 =
      List.replicate (burstNum minB maxB pick buf.length) Ev.back ++
        (buf.drop (buf.length - burstNum minB maxB pick buf.length)).map Ev.retype := by
  have hlen : 1 ≤ buf.length := List.length_pos.mpr hb
  have hEffMin : min minB (min maxB buf.length) = min minB buf.length := by omega
  simp only [burstResult]
  rw [if_pos (by omega)]
  simp only [burstNum, hEffMin]

lemma burstNum_bounds (minB maxB pick len : Nat) (h1 : 1 ≤ minB) (h2 : minB ≤ maxB)
    (hlen : 1 ≤ len) :
    min minB len ≤ burstNum minB maxB pick len ∧
      burstNum minB maxB pick len ≤ min maxB len := by
  have hmod : pick % (min maxB len + 1 - min minB len) < min maxB len + 1 - min minB len :=
    Nat.mod_lt pick (by omega)
  unfold burstNum
  omega

lemma stepChar_burst_eq (minB maxB : Nat) (d : Decision) (buf : List Char) (c : Char)
    (h1 : 1 ≤ minB) (h2 : minB ≤ maxB) (hd : d.doBack = true) (hb : buf ≠ []) :
    stepChar minB maxB d buf c =
      (buf ++ [c],
        List.replicate (burstNum minB maxB d.pick buf.length) Ev.back ++
          (buf.drop (buf.length - burstNum minB maxB d.pick buf.length)).map Ev.retype
          ++ [Ev.main c]) := by
  have hne : buf.isEmpty = false := by
    cases buf with
    | nil => exact absurd rfl hb
    | cons a t => rfl
  simp only [stepChar, hd, hne, Bool.not_false, Bool.and_true, if_pos, Bool.true_and,
    if_true, burstResult_fst, burstResult_snd_eq minB maxB d.pick buf h1 h2 hb,
    List.append_assoc]

/-- C4: during a typing run with validated parameters
(1 <= min_backspaces <= max_backspaces), (i) no correction burst can
occur before any character has been emitted: with an empty buffer the
iteration emits only the main character; (ii) whenever a burst fires its
backspace count n lies in [min(min_backspaces, emitted),
min(max_backspaces, emitted)] where emitted is the current buffer length,
and the n characters removed (the buffer suffix) are re-emitted
individually in their original order before the current source character;
(iii) every count in that interval is drawn for some value of the randint
oracle, matching a uniform draw over the whole interval. -/
theorem correction_burst_shape (minB maxB : Nat) (h1 : 1 ≤ minB) (h2 : minB ≤ maxB) :
    (∀ (d : Decision) (c : Char), stepChar minB maxB d [] c = ([c], [Ev.main c])) ∧
    (∀ (d : Decision) (buf : List Char) (c : Char), d.doBack = true → buf ≠ [] →
      ∃ n, min minB buf.length ≤ n ∧ n ≤ min maxB buf.length ∧
        stepChar minB maxB d buf c =
          (buf ++ [c],
            List.replicate n Ev.back ++ (buf.drop (buf.length - n)).map Ev.retype
              ++ [Ev.main c])) ∧
    (∀ (buf : List Char) (c : Char) (n : Nat), buf ≠ [] →
      min minB buf.length ≤ n → n ≤ min maxB buf.length →
      ∃ pick, stepChar minB maxB ⟨true, pick⟩ buf c =
        (buf ++ [c],
          List.replicate n Ev.back ++ (buf.drop (buf.length - n)).map Ev.retype
            ++ [Ev.main c])) := by
  refine ⟨fun d c => ?_, fun d buf c hd hb => ?_, fun buf c n hb hn1 hn2 => ?_⟩
  · simp [stepChar]
  · have hlen : 1 ≤ buf.length := List.length_pos.mpr hb
    exact ⟨burstNum minB maxB d.pick buf.length,
      (burstNum_bounds minB maxB d.pick buf.length h1 h2 hlen).1,
      (burstNum_bounds minB maxB d.pick buf.length h1 h2 hlen).2,
      stepChar_burst_eq minB maxB d buf c h1 h2 hd hb⟩
  · have hlen : 1 ≤ buf.length := List.length_pos.mpr hb
    refine ⟨n - min minB buf.length, ?_⟩
    have heq : burstNum minB maxB (n - min minB buf.length) buf.length = n := by
      unfold burstNum
      rw [Nat.mod_eq_of_lt (by omega)]
      omega
    have h := stepChar_burst_eq minB maxB ⟨true, n - min minB buf.length⟩ buf c h1 h2 rfl hb
    rw [h, heq]

/-- Witness for C4: with defaults 1/3 and buffer "a" of length 1, the
burst deletes and retypes exactly one character before typing 'b'. -/
theorem correction_burst_shape_witness :
    ∃ pick, stepChar 1 3 ⟨true, pick⟩ ['a'] 'b' =
      (['a'] ++ ['b'],
        List.replicate 1 Ev.back ++ ((['a'] : List Char).drop (List.length ['a'] - 1)).map Ev.retype
          ++ [Ev.main 'b']) :=
  (correction_burst_shape 1 3 (by decide) (by decide)).2.2 ['a'] 'b' 1
    (by decide) (by decide) (by decide)

/-! ### Import/export claims -/

lemma nodup_keys_val_eq {d : List (String × PyVal)} (hn : (d.map Prod.fst).Nodup)
    {k : String} {v w : PyVal} (hv : (k, v) ∈ d) (hw : (k, w) ∈ d) : v = w := by
  induction d with
  | nil => cases hv
  | cons a t ih =>
    simp only [List.map_cons, List.nodup_cons] at hn
    rcases List.mem_cons.mp hv with h1 | hv2
    · rcases List.mem_cons.mp hw with h2 | hw2
      · exact congrArg Prod.snd (h1.trans h2.symm)
      · exfalso
        apply hn.1
        rw [← h1]
        exact List.mem_map.mpr ⟨(k, w), hw2, rfl⟩
    · rcases List.mem_cons.mp hw with h2 | hw2
      · exfalso
        apply hn.1
        rw [← h2]
        exact List.mem_map.mpr ⟨(k, v), hv2, rfl⟩
      · exact ih hn.2 hv2 hw2

lemma dictSet_of_mem {d : List (String × PyVal)} (hn : (d.map Prod.fst).Nodup)
    {k : String} {v : PyVal} (h : (k, v) ∈ d) : dictSet d k v = d := by
  unfold dictSet
  rw [if_pos (List.any_eq_true.mpr ⟨(k, v), h, by simp⟩)]
  have : ∀ kv ∈ d, (if kv.1 = k then (k, v) else kv) = kv := by
    intro kv hkv
    by_cases hk : kv.1 = k
    · rw [if_pos hk]
      rcases kv with ⟨k1, v1⟩
      cases hk
      exact congrArg (fun w => (k1, w)) (nodup_keys_val_eq hn h hkv)
    · rw [if_neg hk]
  calc d.map (fun kv => if kv.1 = k then (k, v) else kv) = d.map id := List.map_congr_left this
    _ = d := List.map_id d

lemma dictUpdate_of_forall {d other : List (String × PyVal)}
    (h : ∀ kv ∈ other, dictSet d kv.1 kv.2 = d) : dictUpdate d other = d := by
  induction other with
  | nil => rfl
  | cons kv rest ih =>
    have step : dictUpdate d (kv :: rest) = dictUpdate (dictSet d kv.1 kv.2) rest := rfl
    rw [step, h kv (List.mem_cons_self kv rest)]
    exact ih (fun x hx => h x (List.mem_cons_of_mem kv hx))

/-- C7: exporting a snippet mapping to a path and importing that path
back reproduces the mapping exactly, and merging the imported mapping
into the store it came from (the frontend does snippets.update(imported))
leaves the store unchanged.  The mapping is any dict with (necessarily
unique) keys. -/
theorem export_import_roundtrip (fs : String → Option PyVal) (path : String)
    (kvs : List (String × PyVal)) (hn : (kvs.map Prod.fst).Nodup) :
    import_snippets (export_snippets fs path (PyVal.dict kvs)) path =
      some (PyVal.dict kvs) ∧
    dictUpdate kvs kvs = kvs := by
  constructor
  · simp [import_snippets, export_snippets, PyVal.isDict]
  · exact dictUpdate_of_forall (fun kv hkv => dictSet_of_mem hn (by rcases kv with ⟨a, b⟩; exact hkv))

/-- Witness for C7 on the one-entry mapping "a" -> "x". -/
theorem export_import_roundtrip_witness :
    ([("a", PyVal.str "x")].map Prod.fst).Nodup ∧
    (import_snippets (export_snippets (fun _ => none) "p" (PyVal.dict [("a", PyVal.str "x")])) "p" =
        some (PyVal.dict [("a", PyVal.str "x")]) ∧
      dictUpdate [("a", PyVal.str "x")] [("a", PyVal.str "x")] = [("a", PyVal.str "x")]) :=
  ⟨by decide, export_import_roundtrip (fun _ => none) "p" [("a", PyVal.str "x")] (by decide)⟩

/-- C8: import_snippets returns a parsed mapping exactly when the file at
the path parses to a JSON object; for an unreadable or malformed file
(fs path = none) and for any other top-level JSON shape it returns None,
and in that case the frontend import flow leaves the snippet store
untouched (no merge happens). -/
theorem import_rejects_non_object (fs : String → Option PyVal) (path : String)
    (store : List (String × PyVal)) :
    (∀ w, import_snippets fs path = some w ↔ (fs path = some w ∧ w.isDict = true)) ∧
    (import_snippets fs path = none → on_import fs path store = store) := by
  constructor
  · intro w
    unfold import_snippets
    cases h : fs path with
    | none => simp
    | some v =>
      by_cases hd : v.isDict
      · simp [hd]
        intro h0
        subst h0
        exact hd
      · simp [hd]
        intro h0
        subst h0
        simpa using hd
  · intro h
    unfold on_import
    rw [h]

/-- Witness for C8: a file parsing to a JSON array is rejected and the
store survives unchanged. -/
theorem import_rejects_non_object_witness :
    on_import (fun _ => some (PyVal.list [])) "p" [("a", PyVal.int 1)] =
      [("a", PyVal.int 1)] :=
  (import_rejects_non_object (fun _ => some (PyVal.list [])) "p" [("a", PyVal.int 1)]).2 rfl

/-! ### Helper lemmas for hotkey normalization -/

/-- A character outside the ASCII uppercase range. -/
def NotUpper (c : Char) : Prop := c.toNat < 65 ∨ 90 < c.toNat

instance (c : Char) : Decidable (NotUpper c) := by
  unfold NotUpper
  infer_instance

lemma char_toNat_ofNat_valid {n : Nat} (h : n.isValidChar) : (Char.ofNat n).toNat = n := by
  unfold Char.ofNat
  rw [dif_pos h]
  rfl

lemma toLower_of_notUpper {c : Char} (h : NotUpper c) : c.toLower = c := by
  unfold Char.toLower
  rw [if_neg]
  unfold NotUpper at h
  omega

lemma notUpper_toLower (c : Char) : NotUpper c.toLower := by
  unfold Char.toLower
  by_cases h : c.toNat ≥ 65 ∧ c.toNat ≤ 90
  · rw [if_pos h]
    unfold NotUpper
    rw [char_toNat_ofNat_valid (Or.inl (by omega))]
    omega
  · rw [if_neg h]
    unfold NotUpper
    omega

lemma lookup_mem {l : List (List Char × List Char)} {p v : List Char}
    (h : l.lookup p = some v) : (p, v) ∈ l := by
  induction l with
  | nil => cases h
  | cons a t ih =>
    rcases a with ⟨k, w⟩
    rw [List.lookup_cons] at h
    cases hbeq : p == k with
    | true =>
      simp only [hbeq] at h
      have hv : v = w := by injection h with h2; exact h2.symm
      subst hv
      have hp : p = k := eq_of_beq hbeq
      subst hp
      exact List.mem_cons_self _ _
    | false =>
      simp only [hbeq] at h
      exact List.mem_cons_of_mem _ (ih h)

lemma map_id_of_forall {α : Type} {l : List α} {f : α → α} (h : ∀ c ∈ l, f c = c) :
    l.map f = l := by
  calc l.map f = l.map id := List.map_congr_left h
    _ = l := List.map_id l

lemma splitPlus_ne_nil (l : List Char) : splitPlus l ≠ [] := by
  cases l with
  | nil => simp [splitPlus]
  | cons c rest =>
    simp only [splitPlus]
    split
    · simp
    · split <;> simp

lemma mem_splitPlus_chars {l p : List Char} (hp : p ∈ splitPlus l) {c : Char}
    (hc : c ∈ p) : c ∈ l ∧ c ≠ '+' := by
  induction l generalizing p with
  | nil =>
    simp [splitPlus] at hp
    subst hp
    cases hc
  | cons a rest ih =>
    simp only [splitPlus] at hp
    by_cases ha : a = '+'
    · rw [if_pos ha] at hp
      rcases List.mem_cons.mp hp with rfl | hp2
      · cases hc
      · have := ih hp2 hc
        exact ⟨List.mem_cons_of_mem a this.1, this.2⟩
    · rw [if_neg ha] at hp
      rcases hq : splitPlus rest with _ | ⟨q, qs⟩
      · exact absurd hq (splitPlus_ne_nil rest)
      · rw [hq] at hp
        rcases List.mem_cons.mp hp with rfl | hp2
        · rcases List.mem_cons.mp hc with rfl | hc2
          · exact ⟨List.mem_cons_self _ _, ha⟩
          · have := ih (by rw [hq]; exact List.mem_cons_self q qs) hc2
            exact ⟨List.mem_cons_of_mem a this.1, this.2⟩
        · have := ih (by rw [hq]; exact List.mem_cons_of_mem q hp2) hc
          exact ⟨List.mem_cons_of_mem a this.1, this.2⟩

lemma splitPlus_of_not_mem {p : List Char} (h : '+' ∉ p) : splitPlus p = [p] := by
  induction p with
  | nil => rfl
  | cons a rest ih =>
    have ha : a ≠ '+' := fun hx => h (hx ▸ List.mem_cons_self a rest)
    have hr : '+' ∉ rest := fun hx => h (List.mem_cons_of_mem a hx)
    simp only [splitPlus, if_neg ha, ih hr]

lemma splitPlus_append_plus {p rest : List Char} (h : '+' ∉ p) :
    splitPlus (p ++ '+' :: rest) = p :: splitPlus rest := by
  induction p with
  | nil => simp [splitPlus]
  | cons a p2 ih =>
    have ha : a ≠ '+' := fun hx => h (hx ▸ List.mem_cons_self a p2)
    have hp2 : '+' ∉ p2 := fun hx => h (List.mem_cons_of_mem a hx)
    simp only [List.cons_append, splitPlus, if_neg ha, List.append_eq, ih hp2]

lemma splitPlus_joinPlus {ps : List (List Char)} (hne : ps ≠ [])
    (h : ∀ p ∈ ps, '+' ∉ p) : splitPlus (joinPlus ps) = ps := by
  induction ps with
  | nil => exact absurd rfl hne
  | cons p tail ih =>
    cases tail with
    | nil => exact splitPlus_of_not_mem (h p (List.mem_cons_self p []))
    | cons q tail2 =>
      have hj : joinPlus (p :: q :: tail2) = p ++ '+' :: joinPlus (q :: tail2) := rfl
      rw [hj, splitPlus_append_plus (h p (List.mem_cons_self _ _)),
        ih (by simp) (fun x hx => h x (List.mem_cons_of_mem p hx))]

lemma mem_joinPlus {ps : List (List Char)} {c : Char} (hc : c ∈ joinPlus ps) :
    c = '+' ∨ ∃ p ∈ ps, c ∈ p := by
  induction ps with
  | nil => cases hc
  | cons p tail ih =>
    cases tail with
    | nil => exact Or.inr ⟨p, List.mem_cons_self p [], hc⟩
    | cons q tail2 =>
      have hj : joinPlus (p :: q :: tail2) = p ++ '+' :: joinPlus (q :: tail2) := rfl
      rw [hj] at hc
      rcases List.mem_append.mp hc with h1 | h2
      · exact Or.inr ⟨p, List.mem_cons_self _ _, h1⟩
      · rcases List.mem_cons.mp h2 with rfl | h3
        · exact Or.inl rfl
        · rcases ih h3 with h4 | ⟨r, hr, hcr⟩
          · exact Or.inl h4
          · exact Or.inr ⟨r, List.mem_cons_of_mem p hr, hcr⟩

lemma cleanChars_chars {s : List Char} {c : Char} (hc : c ∈ cleanChars s) :
    (NotUpper c ∧ c ≠ '-' ∧ c ≠ ' ') ∨ c = '+' := by
  unfold cleanChars at hc
  rcases List.mem_map.mp hc with ⟨c0, hc0, hc1⟩
  rcases List.mem_filter.mp hc0 with ⟨hc2, hne⟩
  rcases List.mem_map.mp hc2 with ⟨c1, _, hc3⟩
  subst hc3
  by_cases hd : Char.toLower c1 = '-'
  · rw [if_pos hd] at hc1
    exact Or.inr hc1.symm
  · rw [if_neg hd] at hc1
    subst hc1
    exact Or.inl ⟨notUpper_toLower c1, hd, by simpa using hne⟩

/-- The invariant satisfied by every part of a normalized hotkey: it is
nonempty, it is not a key of the synonym table (so a second application
of the table leaves it alone), and none of its characters is an ASCII
uppercase letter, a hyphen, or a plus. -/
def GoodPart (p : List Char) : Prop :=
  p ≠ [] ∧ replacements.lookup p = none ∧
    ∀ c ∈ p, NotUpper c ∧ c ≠ '-' ∧ c ≠ '+'

instance (p : List Char) : Decidable (GoodPart p) := by
  unfold GoodPart
  infer_instance

lemma values_good : ∀ kv ∈ replacements, GoodPart kv.2 := by decide

lemma repl_goodPart {q : List Char} (hq : q ≠ [])
    (hchars : ∀ c ∈ q, NotUpper c ∧ c ≠ '-' ∧ c ≠ '+') : GoodPart (repl q) := by
  unfold repl
  cases hl : replacements.lookup q with
  | none => exact ⟨hq, hl, hchars⟩
  | some v => exact values_good (q, v) (lookup_mem hl)

lemma sorted_parts_good {s : List Char} {p : List Char} (hp : p ∈ sorted_parts s) :
    GoodPart p := by
  have h1 : p ∈ normalized_parts s :=
    (List.perm_insertionSort keyLe (normalized_parts s)).mem_iff.mp hp
  have h2 : p ∈ (((splitPlus (cleanChars s)).filter (fun q => q ≠ [])).map repl).dedup :=
    (List.perm_insertionSort (fun a b => a ≤ b) _).mem_iff.mp h1
  have h3 := List.mem_dedup.mp h2
  rcases List.mem_map.mp h3 with ⟨q, hqf, rfl⟩
  rcases List.mem_filter.mp hqf with ⟨hqs, hqne⟩
  refine repl_goodPart (by simpa using hqne) ?_
  intro c hc
  have h4 := mem_splitPlus_chars hqs hc
  rcases cleanChars_chars h4.1 with ⟨h5, h6, _⟩ | h7
  · exact ⟨h5, h6, h4.2⟩
  · exact absurd h7 h4.2

lemma sorted_parts_nodup (s : List Char) : (sorted_parts s).Nodup := by
  have h1 : ((((splitPlus (cleanChars s)).filter (fun p => p ≠ [])).map repl).dedup).Nodup :=
    List.nodup_dedup _
  have h2 : (normalized_parts s).Nodup :=
    (List.perm_insertionSort (fun a b => a ≤ b) _).nodup_iff.mpr h1
  exact (List.perm_insertionSort keyLe _).nodup_iff.mpr h2

lemma sorted_parts_sorted (s : List Char) : List.Sorted keyLe (sorted_parts s) :=
  List.sorted_insertionSort keyLe (normalized_parts s)

lemma normalize_core_perm_eq {l1 l2 : List Char}
    (hp : List.Perm (splitPlus (cleanChars l1)) (splitPlus (cleanChars l2))) :
    normalize_core l1 = normalize_core l2 := by
  have hA : List.Perm
      ((((splitPlus (cleanChars l1)).filter (fun p => p ≠ [])).map repl).dedup)
      ((((splitPlus (cleanChars l2)).filter (fun p => p ≠ [])).map repl).dedup) :=
    ((hp.filter _).map repl).dedup
  have hperm : List.Perm (normalized_parts l1) (normalized_parts l2) :=
    ((List.perm_insertionSort _ _).trans hA).trans (List.perm_insertionSort _ _).symm
  have heq : normalized_parts l1 = normalized_parts l2 :=
    List.eq_of_perm_of_sorted hperm
      (List.sorted_insertionSort _ _) (List.sorted_insertionSort _ _)
  unfold normalize_core sorted_parts
  rw [heq]

lemma normalize_core_idem {l : List Char} (h : ' ' ∉ normalize_core l) :
    normalize_core (normalize_core l) = normalize_core l := by
  rcases hP : sorted_parts l with _ | ⟨p0, ps0⟩
  · unfold normalize_core
    rw [hP]
    rfl
  · have hPn : sorted_parts l ≠ [] := by rw [hP]; simp
    have hgood : ∀ p ∈ sorted_parts l, GoodPart p := fun p hp => sorted_parts_good hp
    have hout : normalize_core l = joinPlus (sorted_parts l) := rfl
    have hnospace : ∀ c ∈ joinPlus (sorted_parts l), c ≠ ' ' := by
      intro c hc hsp
      exact h (hout ▸ (hsp ▸ hc))
    have hchars : ∀ c ∈ joinPlus (sorted_parts l), NotUpper c ∧ c ≠ '-' ∧ c ≠ ' ' := by
      intro c hc
      rcases mem_joinPlus hc with rfl | ⟨p, hp, hcp⟩
      · exact ⟨by decide, by decide, by decide⟩
      · have := (hgood p hp).2.2 c hcp
        exact ⟨this.1, this.2.1, hnospace c hc⟩
    have hA : cleanChars (joinPlus (sorted_parts l)) = joinPlus (sorted_parts l) := by
      unfold cleanChars
      rw [map_id_of_forall (fun c hc => toLower_of_notUpper (hchars c hc).1)]
      rw [List.filter_eq_self.mpr (fun c hc => by simpa using (hchars c hc).2.2)]
      exact map_id_of_forall (fun c hc => if_neg (hchars c hc).2.1)
    have hB : splitPlus (joinPlus (sorted_parts l)) = sorted_parts l :=
      splitPlus_joinPlus hPn (fun p hp hplus =>
        ((hgood p hp).2.2 '+' hplus).2.2 rfl)
    have hC : (sorted_parts l).filter (fun p => p ≠ []) = sorted_parts l :=
      List.filter_eq_self.mpr (fun p hp => by simpa using (hgood p hp).1)
    have hD : (sorted_parts l).map repl = sorted_parts l :=
      map_id_of_forall (fun p hp => by unfold repl; rw [(hgood p hp).2.1]; rfl)
    have hE : (sorted_parts l).dedup = sorted_parts l :=
      List.dedup_eq_self.mpr (sorted_parts_nodup l)
    have hN : normalized_parts (joinPlus (sorted_parts l)) =
        List.insertionSort (fun a b => a ≤ b) (sorted_parts l) := by
      unfold normalized_parts
      rw [hA, hB, hC, hD, hE]
    have hS : sorted_parts (joinPlus (sorted_parts l)) = sorted_parts l := by
      unfold sorted_parts at hN ⊢
      rw [hN]
      refine List.eq_of_perm_of_sorted ?_ (List.sorted_insertionSort _ _)
        (sorted_parts_sorted l)
      exact (List.perm_insertionSort _ _).trans (List.perm_insertionSort _ _)
    show joinPlus (sorted_parts (joinPlus (sorted_parts l))) = joinPlus (sorted_parts l)
    rw [hS]

/-- C2 counterexample: normalize_hotkey is not idempotent.  The part
"pause" is rewritten to the table value "pause break" (backend.py
line 59), which contains a space; a second normalization first deletes
every space (line 63), producing the different string "pausebreak". -/
theorem normalize_hotkey_pause_not_idempotent :
    normalize_hotkey (normalize_hotkey "pause") ≠ normalize_hotkey "pause" := by
  decide

/-- C2 (amended): normalize_hotkey is order-insensitive: two inputs
listing the same parts in different orders (their cleaned part lists are
permutations of each other, e.g. "shift+ctrl+a" and "ctrl+shift+a")
normalize to the same canonical string.  It is idempotent for every
input whose normalized form contains no space, i.e. for all inputs
except those with a part mapping to the table value "pause break". -/
theorem normalize_hotkey_order_insensitive_idem :
    (∀ s1 s2 : String,
      List.Perm (splitPlus (cleanChars s1.data)) (splitPlus (cleanChars s2.data)) →
      normalize_hotkey s1 = normalize_hotkey s2) ∧
    (∀ s : String, ' ' ∉ (normalize_hotkey s).data →
      normalize_hotkey (normalize_hotkey s) = normalize_hotkey s) := by
  constructor
  · intro s1 s2 hp
    exact congrArg String.mk (normalize_core_perm_eq hp)
  · intro s hsp
    exact congrArg String.mk (normalize_core_idem hsp)

/-- Witness for C2 (amended): the two orderings of ctrl+shift+a
normalize identically, and a space-free normalization is idempotent. -/
theorem normalize_hotkey_order_insensitive_idem_witness :
    (List.Perm (splitPlus (cleanChars "shift+ctrl+a".data))
        (splitPlus (cleanChars "ctrl+shift+a".data)) ∧
      normalize_hotkey "shift+ctrl+a" = normalize_hotkey "ctrl+shift+a") ∧
    (' ' ∉ (normalize_hotkey "ctrl+a").data ∧
      normalize_hotkey (normalize_hotkey "ctrl+a") = normalize_hotkey "ctrl+a") :=
  ⟨⟨by decide, normalize_hotkey_order_insensitive_idem.1 "shift+ctrl+a" "ctrl+shift+a"
      (by decide)⟩,
   ⟨by decide, normalize_hotkey_order_insensitive_idem.2 "ctrl+a" (by decide)⟩⟩
